import Mathlib

/-!
# Verification of the self-contained diarization core (`scripts/diarize.py`)

This file is a shallow embedding of the self-contained (speechbrain-backend)
diarization pipeline of `scripts/diarize.py`:

* the sliding-window extraction loop of `diarize_speechbrain`
  (`range(0, total_samples - window_samples + 1, hop_samples)`),
* the speaker-count estimator `estimate_num_speakers`,
* the clustering step with its spectral → agglomerative fallback,
* the segment merger `merge_segments`.

Numerical library calls (`cosine_similarity`, `np.linalg.eigvalsh`,
`SpectralClustering.fit_predict`, `AgglomerativeClustering.fit_predict`,
the ECAPA-TDNN embedding model) are modelled as oracle parameters: an
`Except String` / `Option` value standing for "the library call returned
this value / raised an exception".  Real times and eigenvalues are
modelled as rationals; Python's `round(x, 3)` is modelled as exact
round-half-to-even at three decimals.
-/

namespace Diarize

/-! ## Python `range` and the windowing loop -/

/-- Length of Python's `range(start, stop, step)` for a positive `step`:
`max 0 (ceil ((stop - start) / step))`.  (`/` on `ℤ` rounds toward `-∞`
for a positive divisor, matching Python.) -/
def pyRangeLen (start stop step : ℤ) : ℕ :=
  ((stop - start + step - 1) / step).toNat

/-- Python's `range(start, stop, step)` for a positive `step`, as the list
`[start, start + step, …]` of all values below `stop`. -/
def pyRange (start stop step : ℤ) : List ℤ :=
  (List.range (pyRangeLen start stop step)).map
    fun i : ℕ => start + step * (i : ℤ)

/-- The window loop of `diarize_speechbrain`: for each
`start_sample in range(0, total_samples - window_samples + 1, hop_samples)`
the half-open sample range `(start_sample, start_sample + window_samples)`. -/
def extractWindows (total_samples window_samples hop_samples : ℤ) :
    List (ℤ × ℤ) :=
  (pyRange 0 (total_samples - window_samples + 1) hop_samples).map
    fun s => (s, s + window_samples)

/-! ## Rounding (`round(x, 3)`) and speaker-name formatting -/

/-- Floor of a rational, written so the kernel can evaluate it
(`q.num / q.den` equals `⌊q⌋`, see `ratFloor_eq_floor`). -/
def ratFloor (q : ℚ) : ℤ := q.num / (q.den : ℤ)

/-- Round-half-to-even to the nearest integer, the rounding Python's
built-in `round` performs. -/
def roundHalfEven (q : ℚ) : ℤ :=
  if q - ratFloor q < 1/2 then ratFloor q
  else if 1/2 < q - ratFloor q then ratFloor q + 1
  else if ratFloor q % 2 = 0 then ratFloor q else ratFloor q + 1

/-- Python's `round(x, 3)`: round to the nearest multiple of `1/1000`. -/
def round3 (q : ℚ) : ℚ := (roundHalfEven (q * 1000) : ℚ) / 1000

/-- Little-endian decimal digits of `n` (first argument is fuel, always
called with `fuel = n`; empty for `n = 0`). -/
def decDigitsLE : ℕ → ℕ → List ℕ
  | _, 0 => []
  | 0, _ + 1 => []
  | fuel + 1, n + 1 => (n + 1) % 10 :: decDigitsLE fuel ((n + 1) / 10)

/-- Standard decimal rendering of a natural number. -/
def decStr (n : ℕ) : String :=
  if n = 0 then "0"
  else String.mk (((decDigitsLE n n).map fun d => Char.ofNat (48 + d)).reverse)

/-- Python's `f"SPEAKER_{label:02d}"`: the label in decimal, zero-padded to
at least two digits, after the fixed prefix. -/
def speakerName (label : ℕ) : String :=
  "SPEAKER_" ++ (if label < 10 then "0" ++ decStr label else decStr label)

/-! ## Segments and `merge_segments` -/

/-- One output record of `merge_segments`: a JSON object with keys
`start`, `end` and `speaker`.  The `end` key is modelled by the field
`stop` because `end` is a Lean keyword. -/
structure Segment where
  start : ℚ
  stop : ℚ
  speaker : String
  deriving DecidableEq

/-- The scan loop of `merge_segments`, carrying the open segment
`(current_start, current_end, current_speaker)`; each input item is a
`((start_time, end_time), label)` pair. -/
def mergeLoop : List ((ℚ × ℚ) × ℕ) → ℕ → ℚ → ℚ → List Segment
  | [], cur, cs, ce => [⟨round3 cs, round3 ce, speakerName cur⟩]
  | ((s, e), l) :: rest, cur, cs, ce =>
    if l = cur then mergeLoop rest cur cs e
    else ⟨round3 cs, round3 ce, speakerName cur⟩ :: mergeLoop rest l s e

/-- Python's `merge_segments(timestamps, labels)`.  The function walks the two
lists in parallel by index; it is only ever called with
`len(labels) = len(timestamps)` (labels are produced one per window), which
the zip below encodes. -/
def merge_segments (timestamps : List (ℚ × ℚ)) (labels : List ℕ) :
    List Segment :=
  match timestamps.zip labels with
  | [] => []
  | ((s, e), l) :: rest => mergeLoop rest l s e

/-! ## `estimate_num_speakers` -/

/-- A gap ratio: a rational, or `+∞` (`float('inf')`). -/
abbrev GapVal := WithTop ℚ

/-- Insert `x` into a descending-sorted list, keeping it sorted. -/
def insertDesc (x : ℚ) : List ℚ → List ℚ
  | [] => [x]
  | y :: ys => if y < x then x :: y :: ys else y :: insertDesc x ys

/-- `np.sort(…)[::-1]`: sort a list of rationals in descending order
(insertion sort; any comparison sort yields this same list of values). -/
def sortDesc : List ℚ → List ℚ
  | [] => []
  | x :: xs => insertDesc x (sortDesc xs)

/-- The gap list: for `i in range(1, m)`,
`eigenvalues[i-1] / eigenvalues[i]` when `eigenvalues[i] > 0`, else
`float('inf')`. -/
def gapsOf (eigenvalues : List ℚ) (m : ℕ) : List GapVal :=
  (List.range' 1 (m - 1)).map fun i =>
    if 0 < eigenvalues.getD i 0 then
      ((eigenvalues.getD (i - 1) 0 / eigenvalues.getD i 0 : ℚ) : GapVal)
    else ⊤

/-- Numpy's `np.argmax`: index of the first occurrence of the maximum (0 on an
empty list, a case numpy rejects and the code never reaches). -/
def npArgmax : List GapVal → ℕ
  | [] => 0
  | [_] => 0
  | x :: y :: rest =>
    if (y :: rest).getD (npArgmax (y :: rest)) ⊤ ≤ x then 0
    else npArgmax (y :: rest) + 1

/-- The body of the `try:` block of `estimate_num_speakers`, given the
eigenvalue list `eigvalsh` returned: sort descending, clamp
`max_speakers` to `len(eigenvalues) - 1`, build the gap list, and take
`max(2, min(argmax + 1, max_speakers))` (2 when the gap list is empty). -/
def eigenGapCount (eigenvalues : List ℚ) (max_speakers : ℕ) : ℕ :=
  let ev := sortDesc eigenvalues
  let m := min max_speakers (ev.length - 1)
  let gaps := gapsOf ev m
  if gaps.isEmpty then 2 else max 2 (min (npArgmax gaps + 1) m)

/-- Python's `estimate_num_speakers(embeddings, max_speakers)` for `n` embeddings.
`sim` is the `cosine_similarity` call — it sits OUTSIDE the `try:` block,
so its exception propagates.  `eigenRes` is the `np.linalg.eigvalsh` call
inside the `try:` block: `none` means it raised, which the
`except Exception:` clause turns into the fallback count 2. -/
def estimate_num_speakers (n : ℕ) (sim : Except String Unit)
    (eigenRes : Option (List ℚ)) (max_speakers : ℕ) : Except String ℕ :=
  if n < 2 then Except.ok 1
  else
    match sim with
    | Except.error e => Except.error e
    | Except.ok () =>
      match eigenRes with
      | none => Except.ok 2
      | some ev => Except.ok (eigenGapCount ev max_speakers)

/-! ## Clustering with fallback, and the whole pipeline -/

/-- The clustering step of `diarize_speechbrain`: all-zero labels when
`num_speakers == 1`; otherwise `SpectralClustering(...).fit_predict`
(oracle `spectral`, applied to the same `num_speakers`), and on any
exception `AgglomerativeClustering(cosine, average, same k).fit_predict`
(oracle `agglo`); if that raises too, the exception propagates. -/
def clusterLabels (n num_speakers : ℕ)
    (spectral agglo : ℕ → Except String (List ℕ)) :
    Except String (List ℕ) :=
  if num_speakers = 1 then Except.ok (List.replicate n 0)
  else
    match spectral num_speakers with
    | Except.ok labels => Except.ok labels
    | Except.error _ => agglo num_speakers

/-- Samples per window at 16 kHz: `int(1.5 * 16000)`. -/
def window_samples : ℤ := 24000

/-- Samples per hop at 16 kHz: `int(0.75 * 16000)`. -/
def hop_samples : ℤ := 12000

/-- Number of indices `i ≥ 1` with `labels[i] ≠ labels[i-1]`. -/
def numChanges : List ℕ → ℕ
  | [] => 0
  | [_] => 0
  | a :: b :: rest => (if b ≠ a then 1 else 0) + numChanges (b :: rest)

/-- Value of a little-endian digit list (left inverse of `decDigitsLE`). -/
def ofDecDigitsLE : List ℕ → ℕ
  | [] => 0
  | d :: ds => d + 10 * ofDecDigitsLE ds

/-- The core of `diarize_speechbrain` after audio loading, at 16 kHz:
window the waveform, return `[]` when no window fits (`if not embeddings:
return []`), otherwise estimate the speaker count unless one was supplied
(`max_speakers=8`), cluster, and merge.  `Except.error` is an uncaught
Python exception propagating out of the function. -/
def diarize_speechbrain (total_samples : ℤ) (num_speakers? : Option ℕ)
    (sim : Except String Unit) (eigenRes : Option (List ℚ))
    (spectral agglo : ℕ → Except String (List ℕ)) :
    Except String (List Segment) :=
  let windows := extractWindows total_samples window_samples hop_samples
  let timestamps : List (ℚ × ℚ) :=
    windows.map fun w => ((w.1 : ℚ) / 16000, (w.2 : ℚ) / 16000)
  if windows.isEmpty then Except.ok []
  else
    let n := windows.length
    let kRes : Except String ℕ :=
      match num_speakers? with
      | some k => Except.ok k
      | none => estimate_num_speakers n sim eigenRes 8
    match kRes with
    | Except.error e => Except.error e
    | Except.ok k =>
      match clusterLabels n k spectral agglo with
      | Except.error e => Except.error e
      | Except.ok labels => Except.ok (merge_segments timestamps labels)

/-! ## Windower lemmas -/

theorem ratFloor_eq_floor (q : ℚ) : ratFloor q = ⌊q⌋ := Rat.floor_def.symm

theorem extractWindows_eq (N w h : ℤ) :
    extractWindows N w h =
      (List.range (pyRangeLen 0 (N - w + 1) h)).map
        fun i : ℕ => (h * (i : ℤ), h * (i : ℤ) + w) := by
  unfold extractWindows pyRange
  rw [List.map_map]
  refine List.map_congr_left fun i _ => ?_
  simp [Function.comp]

theorem lt_pyRangeLen_iff {N w h : ℤ} (hh : 0 < h) (i : ℕ) :
    i < pyRangeLen 0 (N - w + 1) h ↔ h * (i : ℤ) + w ≤ N := by
  unfold pyRangeLen
  rw [Int.lt_toNat, Int.lt_iff_add_one_le, Int.le_ediv_iff_mul_le hh]
  have e1 : ((i : ℤ) + 1) * h = h * i + h := by ring
  have e2 : N - w + 1 - 0 + h - 1 = N - w + h := by ring
  rw [e1, e2]
  constructor
  · intro hx; linarith
  · intro hx; linarith

theorem extractWindows_get? {N w h : ℤ} (hh : 0 < h) (i : ℕ) :
    (extractWindows N w h).get? i
      = if h * i + w ≤ N then some (h * i, h * i + w) else none := by
  rw [extractWindows_eq]
  by_cases hi : i < pyRangeLen 0 (N - w + 1) h
  · rw [List.get?_map, List.get?_range hi, if_pos ((lt_pyRangeLen_iff hh i).1 hi)]
    rfl
  · rw [if_neg fun hb => hi ((lt_pyRangeLen_iff hh i).2 hb)]
    rw [List.get?_eq_none]
    simpa using Nat.le_of_not_lt hi

theorem extractWindows_length {N w h : ℤ} :
    (extractWindows N w h).length = pyRangeLen 0 (N - w + 1) h := by
  rw [extractWindows_eq, List.length_map, List.length_range]

theorem extractWindows_chain {N w h : ℤ} (hh : 0 < h) :
    List.Chain' (fun a b : ℤ × ℤ => a.1 < b.1) (extractWindows N w h) := by
  rw [extractWindows_eq]
  rw [List.chain'_map]
  refine List.Pairwise.chain' ?_
  refine (List.pairwise_lt_range _).imp fun hij => ?_
  simpa using mul_lt_mul_of_pos_left (by exact_mod_cast hij) hh

theorem extractWindows_eq_nil_iff {N w h : ℤ} (hh : 0 < h) :
    extractWindows N w h = [] ↔ N < w := by
  rw [extractWindows_eq]
  rw [List.map_eq_nil, List.range_eq_nil]
  constructor
  · intro hL
    by_contra hNw
    have h0 : 0 < pyRangeLen 0 (N - w + 1) h :=
      (lt_pyRangeLen_iff hh 0).2 (by push_neg at hNw; simpa using hNw)
    omega
  · intro hNw
    by_contra hL
    have h0 : 0 < pyRangeLen 0 (N - w + 1) h := Nat.pos_of_ne_zero hL
    have := (lt_pyRangeLen_iff hh 0).1 h0
    simp at this
    omega

/-- C9: for every waveform of `N` samples, with `window_samples` `w > 0` and
`hop_samples` `h > 0`, the windower produces exactly the ordered sequence of
half-open sample ranges `(i*h, i*h + w)` for `i = 0, 1, …` while
`i*h + w ≤ N` (the `i`-th element exists and equals that range precisely
when the bound holds), the window start samples are strictly increasing,
and the sequence is empty exactly when `N < w`. -/
theorem c9_windower_spec (N w h : ℤ) (hh : 0 < h) (hw : 0 < w) :
    (∀ i : ℕ, (extractWindows N w h).get? i
        = if h * i + w ≤ N then some (h * i, h * i + w) else none)
    ∧ List.Chain' (fun a b : ℤ × ℤ => a.1 < b.1) (extractWindows N w h)
    ∧ (extractWindows N w h = [] ↔ N < w) :=
  ⟨fun i => extractWindows_get? hh i, extractWindows_chain hh,
    extractWindows_eq_nil_iff hh⟩

/-- Witness for C9 at the configured 1.5 s window and 0.75 s hop, on a
30000-sample waveform. -/
theorem c9_windower_spec_witness :
    (0:ℤ) < 12000 ∧ (0:ℤ) < 24000 ∧
    ((∀ i : ℕ, (extractWindows 30000 24000 12000).get? i
        = if (12000 : ℤ) * i + 24000 ≤ 30000
          then some ((12000 : ℤ) * i, (12000 : ℤ) * i + 24000) else none)
     ∧ List.Chain' (fun a b : ℤ × ℤ => a.1 < b.1)
         (extractWindows 30000 24000 12000)
     ∧ (extractWindows 30000 24000 12000 = [] ↔ (30000:ℤ) < 24000)) :=
  ⟨by decide, by decide,
    c9_windower_spec 30000 24000 12000 (by decide) (by decide)⟩

/-- C1 counterexample: on a 0-sample waveform (shorter than one window) the
pipeline returns `Except.ok []` — the empty segment sequence as a successful
result — and not any distinguishable failure value. -/
theorem c1_short_input_cex :
    diarize_speechbrain 0 none (Except.ok ()) (some [])
        (fun _ => Except.ok []) (fun _ => Except.ok []) = Except.ok []
    ∧ ¬ ∃ e, diarize_speechbrain 0 none (Except.ok ()) (some [])
        (fun _ => Except.ok []) (fun _ => Except.ok []) = Except.error e := by
  refine ⟨rfl, ?_⟩
  rintro ⟨e, he⟩
  rw [show diarize_speechbrain 0 none (Except.ok ()) (some [])
        (fun _ => Except.ok []) (fun _ => Except.ok []) = Except.ok [] from rfl] at he
  exact Except.noConfusion he

/-- C1 (amended): for every waveform whose sample count `N` is smaller than
`window_samples`, the pipeline returns the empty segment sequence as a
successful (`Except.ok`) result; short input is silently treated as zero
segments, not signaled as a distinguishable failure. -/
theorem c1_short_input_ok_empty (N : ℤ) (hN : N < window_samples)
    (num_speakers? : Option ℕ) (sim : Except String Unit)
    (eigenRes : Option (List ℚ)) (spectral agglo : ℕ → Except String (List ℕ)) :
    diarize_speechbrain N num_speakers? sim eigenRes spectral agglo
      = Except.ok [] := by
  have hnil : extractWindows N window_samples hop_samples = [] :=
    (extractWindows_eq_nil_iff (by norm_num [hop_samples])).2 hN
  unfold diarize_speechbrain
  simp [hnil]

/-- Witness for C1 (amended) at `N = 0`. -/
theorem c1_short_input_ok_empty_witness :
    (0:ℤ) < window_samples ∧
    diarize_speechbrain 0 (some 3) (Except.ok ()) none
        (fun _ => Except.ok []) (fun _ => Except.ok []) = Except.ok [] :=
  ⟨by decide, c1_short_input_ok_empty 0 (by decide) (some 3) (Except.ok ()) none
    (fun _ => Except.ok []) (fun _ => Except.ok [])⟩

/-! ## Estimator lemmas -/

theorem length_insertDesc (x : ℚ) (l : List ℚ) :
    (insertDesc x l).length = l.length + 1 := by
  induction l with
  | nil => rfl
  | cons y ys ih =>
    rw [insertDesc]
    split
    · rfl
    · simp [ih]

theorem length_sortDesc (l : List ℚ) : (sortDesc l).length = l.length := by
  induction l with
  | nil => rfl
  | cons x xs ih => rw [sortDesc, length_insertDesc, ih, List.length_cons]

theorem npArgmax_cons_cons (x y : GapVal) (rest : List GapVal) :
    npArgmax (x :: y :: rest)
      = if (y :: rest).getD (npArgmax (y :: rest)) ⊤ ≤ x then 0
        else npArgmax (y :: rest) + 1 := rfl

theorem npArgmax_lt_length (l : List GapVal) (h : l ≠ []) :
    npArgmax l < l.length := by
  induction l with
  | nil => exact absurd rfl h
  | cons x tl ih =>
    cases tl with
    | nil => simp [npArgmax]
    | cons y rest =>
      rw [npArgmax_cons_cons]
      split
      · simp
      · have := ih (List.cons_ne_nil y rest)
        simp only [List.length_cons] at this ⊢
        omega

theorem npArgmax_is_max (l : List GapVal) :
    ∀ i < l.length, l.getD i ⊤ ≤ l.getD (npArgmax l) ⊤ := by
  induction l with
  | nil => intro i hi; simp at hi
  | cons x tl ih =>
    cases tl with
    | nil =>
      intro i hi
      have : i = 0 := by simpa using hi
      subst this
      simp [npArgmax]
    | cons y rest =>
      intro i hi
      rw [npArgmax_cons_cons]
      by_cases hc : (y :: rest).getD (npArgmax (y :: rest)) ⊤ ≤ x
      · rw [if_pos hc]
        cases i with
        | zero => simp
        | succ j =>
          rw [List.getD_cons_succ, List.getD_cons_zero]
          exact le_trans (ih j (by simpa using hi)) hc
      · rw [if_neg hc]
        cases i with
        | zero =>
          rw [List.getD_cons_zero, List.getD_cons_succ]
          exact le_of_lt (lt_of_not_le hc)
        | succ j =>
          rw [List.getD_cons_succ, List.getD_cons_succ]
          exact ih j (by simpa using hi)

theorem npArgmax_is_first (l : List GapVal) :
    ∀ i < npArgmax l, l.getD i ⊤ < l.getD (npArgmax l) ⊤ := by
  induction l with
  | nil => intro i hi; simp [npArgmax] at hi
  | cons x tl ih =>
    cases tl with
    | nil => intro i hi; simp [npArgmax] at hi
    | cons y rest =>
      intro i hi
      rw [npArgmax_cons_cons] at hi ⊢
      by_cases hc : (y :: rest).getD (npArgmax (y :: rest)) ⊤ ≤ x
      · rw [if_pos hc] at hi
        exact absurd hi (Nat.not_lt_zero i)
      · rw [if_neg hc] at hi ⊢
        cases i with
        | zero =>
          rw [List.getD_cons_zero, List.getD_cons_succ]
          exact lt_of_not_le hc
        | succ j =>
          rw [List.getD_cons_succ, List.getD_cons_succ]
          exact ih j (by omega)

theorem eigenGapCount_ge_two (ev : List ℚ) (maxsp : ℕ) :
    2 ≤ eigenGapCount ev maxsp := by
  simp only [eigenGapCount]
  split
  · exact le_refl 2
  · exact le_max_left 2 _

theorem eigenGapCount_le (ev : List ℚ) (maxsp : ℕ) :
    eigenGapCount ev maxsp ≤ max 2 (min maxsp (ev.length - 1)) := by
  simp only [eigenGapCount, length_sortDesc]
  split
  · exact le_max_left 2 _
  · exact max_le_max (le_refl 2) (min_le_right _ _)

/-- C2 counterexample: with `n = 2` embeddings (eigenvalues `[2, 1]`,
`max_speakers = 8`) the estimator returns 2, which exceeds
`min(max_speakers, n − 1) = 1`; the claimed bound
`2 ≤ c ≤ min(max_speakers, n − 1)` is unsatisfiable there. -/
theorem c2_bound_cex :
    estimate_num_speakers 2 (Except.ok ()) (some [2, 1]) 8 = Except.ok 2
    ∧ ¬ (2 ≤ min 8 (2 - 1)) :=
  ⟨rfl, by decide⟩

/-- C2 (amended): whenever `estimate_num_speakers` returns a count `c` for
`n ≥ 2` embeddings (the `cosine_similarity` call did not raise), `c`
satisfies `2 ≤ c ≤ max 2 (min max_speakers (n − 1))`; in particular it
never returns 1.  (The original upper bound `min(max_speakers, n − 1)` is
exceeded when `min(max_speakers, n − 1) < 2`, where the gap list is empty
and the fallback 2 is returned without clamping.) -/
theorem c2_estimate_bounds (n maxsp c : ℕ) (sim : Except String Unit)
    (eigenRes : Option (List ℚ)) (h2 : 2 ≤ n)
    (hlen : ∀ ev, eigenRes = some ev → ev.length = n)
    (hc : estimate_num_speakers n sim eigenRes maxsp = Except.ok c) :
    2 ≤ c ∧ c ≤ max 2 (min maxsp (n - 1)) := by
  cases sim with
  | error e =>
    simp [estimate_num_speakers, show ¬ n < 2 by omega] at hc
  | ok u =>
    cases u
    cases eigenRes with
    | none =>
      simp [estimate_num_speakers, show ¬ n < 2 by omega] at hc
      omega
    | some ev =>
      simp [estimate_num_speakers, show ¬ n < 2 by omega] at hc
      have hn : ev.length = n := hlen ev rfl
      subst hc
      refine ⟨eigenGapCount_ge_two ev maxsp, ?_⟩
      have h := eigenGapCount_le ev maxsp
      rwa [hn] at h

section
attribute [local semireducible] Rat.mul Rat.inv Rat.add Rat.sub

theorem estimate_concrete_eval :
    estimate_num_speakers 3 (Except.ok ()) (some [3, 2, 1]) 8 = Except.ok 2 := rfl

end

/-- Witness for C2 (amended) at `n = 3`, eigenvalues `[3, 2, 1]`,
`max_speakers = 8` (the estimator returns 2). -/
theorem c2_estimate_bounds_witness :
    2 ≤ 3
    ∧ (∀ ev : List ℚ, some [3, 2, 1] = some ev → ev.length = 3)
    ∧ estimate_num_speakers 3 (Except.ok ()) (some [3, 2, 1]) 8 = Except.ok 2
    ∧ (2 ≤ 2 ∧ 2 ≤ max 2 (min 8 (3 - 1))) :=
  ⟨by decide, fun ev h => by injection h with h; rw [← h]; rfl,
    estimate_concrete_eval,
    c2_estimate_bounds 3 8 2 (Except.ok ()) (some [3, 2, 1]) (by decide)
      (fun ev h => by injection h with h; rw [← h]; rfl)
      estimate_concrete_eval⟩

/-- C4 counterexample: a failure raised by the `cosine_similarity` step is
NOT absorbed — it escapes `estimate_num_speakers` instead of producing the
fallback value 2, because that call sits outside the `try:` block. -/
theorem c4_similarity_failure_escapes_cex :
    estimate_num_speakers 5 (Except.error ("cosine_similarity failed"))
        (some [1, 1, 1, 1, 1]) 8
      = Except.error ("cosine_similarity failed")
    ∧ estimate_num_speakers 5 (Except.error ("cosine_similarity failed"))
        (some [1, 1, 1, 1, 1]) 8 ≠ Except.ok 2 := by
  refine ⟨rfl, fun hcontra => ?_⟩
  rw [show estimate_num_speakers 5 (Except.error ("cosine_similarity failed"))
        (some [1, 1, 1, 1, 1]) 8
      = Except.error ("cosine_similarity failed") from rfl] at hcontra
  exact Except.noConfusion hcontra

/-- C4 (amended): for `n ≥ 2` embeddings, a failure of the
eigendecomposition is absorbed locally and the function returns the fixed
fallback 2, but a failure of the pairwise-similarity computation
propagates out of `estimate_num_speakers` unchanged. -/
theorem c4_failure_handling (n maxsp : ℕ) (h2 : 2 ≤ n) :
    estimate_num_speakers n (Except.ok ()) none maxsp = Except.ok 2
    ∧ ∀ (e : String) (eigenRes : Option (List ℚ)),
        estimate_num_speakers n (Except.error e) eigenRes maxsp
          = Except.error e := by
  constructor
  · simp [estimate_num_speakers, show ¬ n < 2 by omega]
  · intro e eigenRes
    simp [estimate_num_speakers, show ¬ n < 2 by omega]

/-- Witness for C4 (amended) at `n = 2`, `max_speakers = 8`. -/
theorem c4_failure_handling_witness :
    2 ≤ 2
    ∧ (estimate_num_speakers 2 (Except.ok ()) none 8 = Except.ok 2
       ∧ ∀ (e : String) (eigenRes : Option (List ℚ)),
          estimate_num_speakers 2 (Except.error e) eigenRes 8
            = Except.error e) :=
  ⟨by decide, c4_failure_handling 2 8 (by decide)⟩

theorem length_gapsOf (ev : List ℚ) (m : ℕ) : (gapsOf ev m).length = m - 1 := by
  simp [gapsOf]

/-- C5: for `n ≥ 2` embeddings whose eigendecomposition succeeds with
eigenvalue list `ev`, when `m = min(max_speakers, n − 1) ≥ 2` the estimated
count is `argmax + 1` clamped to `[2, m]`, where `argmax` is the first
index attaining the maximum of the gap list (`g_i = λ_{i-1}/λ_i` when
`λ_i > 0`, else `+∞`, over the descending-sorted eigenvalues, for
`i ∈ [1, m)`). -/
theorem c5_eigengap_argmax (n maxsp m : ℕ) (ev : List ℚ) (gaps : List GapVal)
    (h2 : 2 ≤ n) (hlen : ev.length = n)
    (hm : m = min maxsp (n - 1)) (hm2 : 2 ≤ m)
    (hgaps : gaps = gapsOf (sortDesc ev) m) :
    ∃ j, j < gaps.length
      ∧ (∀ i < gaps.length, gaps.getD i ⊤ ≤ gaps.getD j ⊤)
      ∧ (∀ i < j, gaps.getD i ⊤ < gaps.getD j ⊤)
      ∧ estimate_num_speakers n (Except.ok ()) (some ev) maxsp
          = Except.ok (max 2 (min (j + 1) m)) := by
  have hglen : gaps.length = m - 1 := by rw [hgaps, length_gapsOf]
  have hgne : gaps ≠ [] := by
    intro hnil
    rw [hnil] at hglen
    simp at hglen
    omega
  refine ⟨npArgmax gaps, npArgmax_lt_length gaps hgne, npArgmax_is_max gaps,
    npArgmax_is_first gaps, ?_⟩
  have hev : (sortDesc ev).length = n := by rw [length_sortDesc, hlen]
  have hmm : min maxsp ((sortDesc ev).length - 1) = m := by rw [hev, hm]
  simp only [estimate_num_speakers, if_neg (show ¬ n < 2 by omega)]
  simp only [eigenGapCount, hmm, ← hgaps]
  rw [if_neg (by simpa [List.isEmpty_iff] using hgne)]

/-- Witness for C5 at `n = 4`, eigenvalues `[4, 2, 1, 1]`,
`max_speakers = 8`, so `m = 3`. -/
theorem c5_eigengap_argmax_witness :
    2 ≤ 4 ∧ ([(4 : ℚ), 2, 1, 1].length = 4) ∧ 3 = min 8 (4 - 1) ∧ 2 ≤ 3
    ∧ gapsOf (sortDesc [(4 : ℚ), 2, 1, 1]) 3 = gapsOf (sortDesc [(4 : ℚ), 2, 1, 1]) 3
    ∧ ∃ j, j < (gapsOf (sortDesc [(4 : ℚ), 2, 1, 1]) 3).length
      ∧ (∀ i < (gapsOf (sortDesc [(4 : ℚ), 2, 1, 1]) 3).length,
          (gapsOf (sortDesc [(4 : ℚ), 2, 1, 1]) 3).getD i ⊤
            ≤ (gapsOf (sortDesc [(4 : ℚ), 2, 1, 1]) 3).getD j ⊤)
      ∧ (∀ i < j, (gapsOf (sortDesc [(4 : ℚ), 2, 1, 1]) 3).getD i ⊤
            < (gapsOf (sortDesc [(4 : ℚ), 2, 1, 1]) 3).getD j ⊤)
      ∧ estimate_num_speakers 4 (Except.ok ()) (some [(4 : ℚ), 2, 1, 1]) 8
          = Except.ok (max 2 (min (j + 1) 3)) :=
  ⟨by decide, rfl, by decide, by decide, rfl,
    c5_eigengap_argmax 4 8 3 [(4 : ℚ), 2, 1, 1]
      (gapsOf (sortDesc [(4 : ℚ), 2, 1, 1]) 3)
      (by decide) rfl (by decide) (by decide) rfl⟩

/-- C6: when the primary (spectral) strategy raises for a cluster count
`k ≥ 2`, the clustering step returns exactly the result of the
agglomerative strategy invoked with the same `k`; under the library
contract that a successful agglomerative run yields one label per
embedding, each in `[0, k)`, so does the clustering step; and an error is
surfaced only when the agglomerative strategy also fails, in which case
that underlying failure itself is what propagates to the caller. -/
theorem c6_clustering_fallback (n k : ℕ) (hk : 2 ≤ k) (e₁ : String)
    (spectral agglo : ℕ → Except String (List ℕ))
    (hsp : spectral k = Except.error e₁)
    (hagglo : ∀ ls, agglo k = Except.ok ls → ls.length = n ∧ ∀ l ∈ ls, l < k) :
    clusterLabels n k spectral agglo = agglo k
    ∧ (∀ ls, clusterLabels n k spectral agglo = Except.ok ls →
        ls.length = n ∧ ∀ l ∈ ls, l < k)
    ∧ (∀ e₂, agglo k = Except.error e₂ →
        clusterLabels n k spectral agglo = Except.error e₂) := by
  have hne : k ≠ 1 := by omega
  have hcl : clusterLabels n k spectral agglo = agglo k := by
    simp [clusterLabels, hne, hsp]
  exact ⟨hcl, fun ls hls => hagglo ls (hcl.symm.trans hls),
    fun e₂ he => hcl.trans he⟩

/-- Witness for C6: `k = 3`, four embeddings, primary strategy failing,
secondary returning labels `[0, 1, 2, 0]`. -/
theorem c6_clustering_fallback_witness :
    2 ≤ 3
    ∧ (fun _ : ℕ => (Except.error ("spectral failed") : Except String (List ℕ))) 3
        = Except.error ("spectral failed")
    ∧ (∀ ls, (fun _ : ℕ => (Except.ok [0, 1, 2, 0] : Except String (List ℕ))) 3
          = Except.ok ls → ls.length = 4 ∧ ∀ l ∈ ls, l < 3)
    ∧ (clusterLabels 4 3 (fun _ => Except.error ("spectral failed"))
          (fun _ => Except.ok [0, 1, 2, 0])
        = (fun _ : ℕ => (Except.ok [0, 1, 2, 0] : Except String (List ℕ))) 3
      ∧ (∀ ls, clusterLabels 4 3 (fun _ => Except.error ("spectral failed"))
            (fun _ => Except.ok [0, 1, 2, 0]) = Except.ok ls →
          ls.length = 4 ∧ ∀ l ∈ ls, l < 3)
      ∧ (∀ e₂, (fun _ : ℕ => (Except.ok [0, 1, 2, 0] : Except String (List ℕ))) 3
            = Except.error e₂ →
          clusterLabels 4 3 (fun _ => Except.error ("spectral failed"))
            (fun _ => Except.ok [0, 1, 2, 0]) = Except.error e₂)) :=
  ⟨by decide, rfl,
    fun ls h => by injection h with h; subst h; exact ⟨rfl, by decide⟩,
    c6_clustering_fallback 4 3 (by decide) ("spectral failed")
      (fun _ => Except.error ("spectral failed"))
      (fun _ => Except.ok [0, 1, 2, 0]) rfl
      (fun ls h => by injection h with h; subst h; exact ⟨rfl, by decide⟩)⟩

/-! ## Segment-merger lemmas -/

theorem mergeLoop_ne_nil (rest : List ((ℚ × ℚ) × ℕ)) (cur : ℕ) (cs ce : ℚ) :
    mergeLoop rest cur cs ce ≠ [] := by
  induction rest generalizing cur cs ce with
  | nil => simp [mergeLoop]
  | cons p rest ih =>
    obtain ⟨⟨s, e⟩, l⟩ := p
    simp only [mergeLoop]
    split
    · exact ih cur cs e
    · simp

theorem mergeLoop_head (rest : List ((ℚ × ℚ) × ℕ)) (cur : ℕ) (cs ce : ℚ) :
    ∃ e tail, mergeLoop rest cur cs ce
      = ⟨round3 cs, e, speakerName cur⟩ :: tail := by
  induction rest generalizing cur cs ce with
  | nil => exact ⟨round3 ce, [], rfl⟩
  | cons p rest ih =>
    obtain ⟨⟨s, e⟩, l⟩ := p
    by_cases hl : l = cur
    · simp only [mergeLoop, if_pos hl]
      exact ih cur cs e
    · simp only [mergeLoop, if_neg hl]
      exact ⟨round3 ce, mergeLoop rest l s e, rfl⟩

theorem mergeLoop_length (rest : List ((ℚ × ℚ) × ℕ)) (cur : ℕ) (cs ce : ℚ) :
    (mergeLoop rest cur cs ce).length
      = 1 + numChanges (cur :: rest.map Prod.snd) := by
  induction rest generalizing cur cs ce with
  | nil => simp [mergeLoop, numChanges]
  | cons p rest ih =>
    obtain ⟨⟨s, e⟩, l⟩ := p
    by_cases hl : l = cur
    · subst hl
      simp only [mergeLoop, List.map_cons, if_true]
      rw [ih]
      simp [numChanges]
    · simp only [mergeLoop, if_neg hl, List.length_cons, List.map_cons]
      rw [ih]
      simp [numChanges, hl]
      omega

theorem mergeLoop_mem_bounds (rest : List ((ℚ × ℚ) × ℕ)) (cur : ℕ) (cs ce : ℚ) :
    ∀ seg ∈ mergeLoop rest cur cs ce,
      (seg.start = round3 cs ∨ ∃ p ∈ rest, seg.start = round3 p.1.1)
      ∧ (seg.stop = round3 ce ∨ ∃ p ∈ rest, seg.stop = round3 p.1.2) := by
  induction rest generalizing cur cs ce with
  | nil =>
    intro seg hseg
    simp only [mergeLoop, List.mem_singleton] at hseg
    subst hseg
    simp
  | cons p rest ih =>
    obtain ⟨⟨s, e⟩, l⟩ := p
    intro seg hseg
    by_cases hl : l = cur
    · simp only [mergeLoop, if_pos hl] at hseg
      obtain ⟨hstart, hstop⟩ := ih cur cs e seg hseg
      refine ⟨?_, ?_⟩
      · rcases hstart with h | ⟨q, hq, hqe⟩
        · exact Or.inl h
        · exact Or.inr ⟨q, List.mem_cons_of_mem _ hq, hqe⟩
      · rcases hstop with h | ⟨q, hq, hqe⟩
        · exact Or.inr ⟨((s, e), l), List.mem_cons_self _ _, h⟩
        · exact Or.inr ⟨q, List.mem_cons_of_mem _ hq, hqe⟩
    · simp only [mergeLoop, if_neg hl, List.mem_cons] at hseg
      rcases hseg with hseg | hseg
      · subst hseg
        exact ⟨Or.inl rfl, Or.inl rfl⟩
      · obtain ⟨hstart, hstop⟩ := ih l s e seg hseg
        refine ⟨?_, ?_⟩
        · rcases hstart with h | ⟨q, hq, hqe⟩
          · exact Or.inr ⟨((s, e), l), List.mem_cons_self _ _, h⟩
          · exact Or.inr ⟨q, List.mem_cons_of_mem _ hq, hqe⟩
        · rcases hstop with h | ⟨q, hq, hqe⟩
          · exact Or.inr ⟨((s, e), l), List.mem_cons_self _ _, h⟩
          · exact Or.inr ⟨q, List.mem_cons_of_mem _ hq, hqe⟩

theorem mergeLoop_getLastD_stop (rest : List ((ℚ × ℚ) × ℕ)) (cur : ℕ)
    (cs ce : ℚ) (d : Segment) :
    ((mergeLoop rest cur cs ce).getLastD d).stop
      = round3 (rest.foldl (fun _ p => p.1.2) ce) := by
  induction rest generalizing cur cs ce d with
  | nil => simp [mergeLoop]
  | cons p rest ih =>
    obtain ⟨⟨s, e⟩, l⟩ := p
    by_cases hl : l = cur
    · simp only [mergeLoop, if_pos hl, List.foldl_cons]
      exact ih cur cs e d
    · simp only [mergeLoop, if_neg hl, List.foldl_cons, List.getLastD_cons]
      exact ih l s e _

theorem mergeLoop_relabel (π : ℕ → ℕ) (hπ : Function.Injective π)
    (rest : List ((ℚ × ℚ) × ℕ)) (cur : ℕ) (cs ce : ℚ) :
    (mergeLoop (rest.map (Prod.map id π)) (π cur) cs ce).map
        (fun seg => (seg.start, seg.stop))
      = (mergeLoop rest cur cs ce).map (fun seg => (seg.start, seg.stop)) := by
  induction rest generalizing cur cs ce with
  | nil => rfl
  | cons p rest ih =>
    obtain ⟨⟨s, e⟩, l⟩ := p
    by_cases hl : l = cur
    · subst hl
      simp only [List.map_cons, Prod.map, id, mergeLoop, if_pos rfl]
      exact ih l cs e
    · have hne : π l ≠ π cur := fun hcontra => hl (hπ hcontra)
      simp only [List.map_cons, Prod.map, id, mergeLoop, if_neg hne, if_neg hl]
      rw [ih]

theorem foldl_lastStop (ts : List (ℚ × ℚ)) (a : ℚ × ℚ) :
    ts.foldl (fun _ w => w.2) a.2 = (ts.getLastD a).2 := by
  induction ts generalizing a with
  | nil => rfl
  | cons w ts ih => rw [List.foldl_cons, List.getLastD_cons]; exact ih w

/-- C8: relabeling the cluster labels by any bijection `π` yields a segment
list of the same length with identical `start`/`end` boundaries,
differing at most in the `speaker` strings. -/
theorem c8_merge_relabel_invariant (ts : List (ℚ × ℚ)) (labels : List ℕ)
    (π : ℕ → ℕ) (hπ : Function.Bijective π) :
    (merge_segments ts (labels.map π)).length
        = (merge_segments ts labels).length
    ∧ (merge_segments ts (labels.map π)).map (fun seg => (seg.start, seg.stop))
        = (merge_segments ts labels).map (fun seg => (seg.start, seg.stop)) := by
  have hmap : (merge_segments ts (labels.map π)).map
      (fun seg => (seg.start, seg.stop))
      = (merge_segments ts labels).map (fun seg => (seg.start, seg.stop)) := by
    unfold merge_segments
    rw [List.zip_map_right]
    cases hz : ts.zip labels with
    | nil => rfl
    | cons hd tl =>
      obtain ⟨⟨s, e⟩, l⟩ := hd
      exact mergeLoop_relabel π hπ.injective tl l s e
  refine ⟨?_, hmap⟩
  have hl := congrArg List.length hmap
  simpa using hl

theorem swap01_bijective :
    Function.Bijective
      (fun n : ℕ => if n = 0 then 1 else if n = 1 then 0 else n) := by
  have hinv : Function.Involutive
      (fun n : ℕ => if n = 0 then 1 else if n = 1 then 0 else n) := by
    intro n
    by_cases h0 : n = 0
    · simp [h0]
    · by_cases h1 : n = 1 <;> simp [h0, h1]
  exact hinv.bijective

/-- Witness for C8: three windows, labels `(0,0,1)`, relabeled by the
bijection on label values that swaps 0 and 1. -/
theorem c8_merge_relabel_invariant_witness :
    Function.Bijective (fun n : ℕ => if n = 0 then 1 else if n = 1 then 0 else n)
    ∧ ((merge_segments [((0 : ℚ), 3/2), (3/4, 9/4), (3/2, 3)]
          ([0, 0, 1].map (fun n : ℕ => if n = 0 then 1 else if n = 1 then 0 else n))).length
        = (merge_segments [((0 : ℚ), 3/2), (3/4, 9/4), (3/2, 3)] [0, 0, 1]).length
      ∧ (merge_segments [((0 : ℚ), 3/2), (3/4, 9/4), (3/2, 3)]
          ([0, 0, 1].map (fun n : ℕ => if n = 0 then 1 else if n = 1 then 0 else n))).map
            (fun seg => (seg.start, seg.stop))
        = (merge_segments [((0 : ℚ), 3/2), (3/4, 9/4), (3/2, 3)] [0, 0, 1]).map
            (fun seg => (seg.start, seg.stop))) :=
  ⟨swap01_bijective,
    c8_merge_relabel_invariant [((0 : ℚ), 3/2), (3/4, 9/4), (3/2, 3)] [0, 0, 1]
      (fun n : ℕ => if n = 0 then 1 else if n = 1 then 0 else n)
      swap01_bijective⟩

/-- C10: for non-empty aligned input, the merger emits exactly
`1 + (number of label changes)` segments; every boundary is the rounded
start (resp. end) of some input window; the first segment starts at the
first window's rounded start and the last segment ends at the last
window's rounded end. -/
theorem c10_merge_structure (ts : List (ℚ × ℚ)) (labels : List ℕ)
    (hne : ts ≠ []) (hlen : ts.length = labels.length) :
    (merge_segments ts labels).length = 1 + numChanges labels
    ∧ (∀ seg ∈ merge_segments ts labels,
        (∃ w ∈ ts, seg.start = round3 w.1) ∧ (∃ w ∈ ts, seg.stop = round3 w.2))
    ∧ ((merge_segments ts labels).head?).map Segment.start
        = ts.head?.map (fun w => round3 w.1)
    ∧ (∀ d dw, ((merge_segments ts labels).getLastD d).stop
        = round3 ((ts.getLastD dw).2)) := by
  cases ts with
  | nil => exact absurd rfl hne
  | cons t0 ts' =>
    cases labels with
    | nil => exact absurd hlen (by simp)
    | cons l0 ls' =>
      have hlen' : ts'.length = ls'.length := by simpa using hlen
      have hzip : (t0 :: ts').zip (l0 :: ls') = (t0, l0) :: ts'.zip ls' := rfl
      have hmerge : merge_segments (t0 :: ts') (l0 :: ls')
          = mergeLoop (ts'.zip ls') l0 t0.1 t0.2 := by
        unfold merge_segments
        rw [hzip]
      refine ⟨?_, ?_, ?_, ?_⟩
      · rw [hmerge, mergeLoop_length,
          List.map_snd_zip ts' ls' (le_of_eq hlen'.symm)]
      · intro seg hseg
        rw [hmerge] at hseg
        obtain ⟨hstart, hstop⟩ := mergeLoop_mem_bounds _ _ _ _ seg hseg
        constructor
        · rcases hstart with h | ⟨p, hp, hpe⟩
          · exact ⟨t0, List.mem_cons_self _ _, h⟩
          · exact ⟨p.1, List.mem_cons_of_mem _ (List.of_mem_zip hp).1, hpe⟩
        · rcases hstop with h | ⟨p, hp, hpe⟩
          · exact ⟨t0, List.mem_cons_self _ _, h⟩
          · exact ⟨p.1, List.mem_cons_of_mem _ (List.of_mem_zip hp).1, hpe⟩
      · rw [hmerge]
        obtain ⟨e, tail, heq⟩ := mergeLoop_head (ts'.zip ls') l0 t0.1 t0.2
        rw [heq]
        rfl
      · intro d dw
        rw [hmerge, mergeLoop_getLastD_stop]
        have hfst : (ts'.zip ls').map Prod.fst = ts' :=
          List.map_fst_zip ts' ls' (le_of_eq hlen')
        have hfold : (ts'.zip ls').foldl (fun _ p => p.1.2) t0.2
            = ts'.foldl (fun _ w => w.2) t0.2 := by
          conv_rhs => rw [← hfst]
          rw [List.foldl_map]
        rw [hfold, List.getLastD_cons]
        rw [show ts'.foldl (fun _ w => w.2) t0.2
            = (ts'.getLastD t0).2 from foldl_lastStop ts' t0]

/-- Witness for C10 on three windows with labels `(0,0,1)`. -/
theorem c10_merge_structure_witness :
    ([((0 : ℚ), 3/2), (3/4, 9/4), (3/2, 3)] : List (ℚ × ℚ)) ≠ []
    ∧ ([((0 : ℚ), 3/2), (3/4, 9/4), (3/2, 3)] : List (ℚ × ℚ)).length
        = ([0, 0, 1] : List ℕ).length
    ∧ ((merge_segments [((0 : ℚ), 3/2), (3/4, 9/4), (3/2, 3)] [0, 0, 1]).length
        = 1 + numChanges [0, 0, 1]
      ∧ (∀ seg ∈ merge_segments [((0 : ℚ), 3/2), (3/4, 9/4), (3/2, 3)] [0, 0, 1],
          (∃ w ∈ ([((0 : ℚ), 3/2), (3/4, 9/4), (3/2, 3)] : List (ℚ × ℚ)),
              seg.start = round3 w.1)
          ∧ (∃ w ∈ ([((0 : ℚ), 3/2), (3/4, 9/4), (3/2, 3)] : List (ℚ × ℚ)),
              seg.stop = round3 w.2))
      ∧ ((merge_segments [((0 : ℚ), 3/2), (3/4, 9/4), (3/2, 3)] [0, 0, 1]).head?).map
            Segment.start
          = ([((0 : ℚ), 3/2), (3/4, 9/4), (3/2, 3)] : List (ℚ × ℚ)).head?.map
              (fun w => round3 w.1)
      ∧ (∀ d dw, ((merge_segments [((0 : ℚ), 3/2), (3/4, 9/4), (3/2, 3)]
            [0, 0, 1]).getLastD d).stop
          = round3 ((([((0 : ℚ), 3/2), (3/4, 9/4), (3/2, 3)] :
              List (ℚ × ℚ)).getLastD dw).2))) :=
  ⟨by decide, rfl,
    c10_merge_structure [((0 : ℚ), 3/2), (3/4, 9/4), (3/2, 3)] [0, 0, 1]
      (by decide) rfl⟩

/-! ## Decimal rendering and `speakerName` injectivity -/

theorem ofDec_decDigitsLE : ∀ (fuel n : ℕ), n ≤ fuel →
    ofDecDigitsLE (decDigitsLE fuel n) = n := by
  intro fuel
  induction fuel with
  | zero =>
    intro n h
    have : n = 0 := by omega
    subst this
    rfl
  | succ f ih =>
    intro n h
    cases n with
    | zero => rfl
    | succ m =>
      have hdiv : (m + 1) / 10 ≤ f := by
        have := Nat.div_lt_self (Nat.succ_pos m) (by omega : 1 < 10)
        omega
      simp only [decDigitsLE, ofDecDigitsLE, ih _ hdiv]
      exact Nat.mod_add_div (m + 1) 10

theorem decDigitsLE_inj {a b : ℕ}
    (h : decDigitsLE a a = decDigitsLE b b) : a = b := by
  have ha := ofDec_decDigitsLE a a (le_refl a)
  have hb := ofDec_decDigitsLE b b (le_refl b)
  rw [← ha, ← hb, h]

theorem decDigitsLE_lt_ten : ∀ (fuel n : ℕ), ∀ d ∈ decDigitsLE fuel n, d < 10 := by
  intro fuel
  induction fuel with
  | zero =>
    intro n d hd
    cases n <;> simp [decDigitsLE] at hd
  | succ f ih =>
    intro n d hd
    cases n with
    | zero => simp [decDigitsLE] at hd
    | succ m =>
      simp only [decDigitsLE, List.mem_cons] at hd
      rcases hd with rfl | hd
      · exact Nat.mod_lt _ (by omega)
      · exact ih _ d hd

theorem decDigitsLE_ne_nil (fuel n : ℕ) (h1 : 1 ≤ n) (h2 : n ≤ fuel) :
    decDigitsLE fuel n ≠ [] := by
  cases fuel with
  | zero => omega
  | succ f =>
    cases n with
    | zero => omega
    | succ m => simp [decDigitsLE]

theorem getLastD_irrel {α : Type} (l : List α) (h : l ≠ []) (a b : α) :
    l.getLastD a = l.getLastD b := by
  cases l with
  | nil => exact absurd rfl h
  | cons x xs => rw [List.getLastD_cons, List.getLastD_cons]

theorem decDigitsLE_zero (fuel : ℕ) : decDigitsLE fuel 0 = [] := by
  cases fuel <;> rfl

theorem decDigitsLE_getLastD_ne_zero : ∀ (fuel n : ℕ), 1 ≤ n → n ≤ fuel →
    (decDigitsLE fuel n).getLastD 1 ≠ 0 := by
  intro fuel
  induction fuel with
  | zero => intro n h1 h2; omega
  | succ f ih =>
    intro n h1 h2
    cases n with
    | zero => omega
    | succ m =>
      simp only [decDigitsLE, List.getLastD_cons]
      by_cases hm : (m + 1) / 10 = 0
      · rw [hm, decDigitsLE_zero, List.getLastD_nil]
        omega
      · have hdiv : (m + 1) / 10 ≤ f := by
          have := Nat.div_lt_self (Nat.succ_pos m) (by omega : 1 < 10)
          omega
        have hne := decDigitsLE_ne_nil f ((m + 1) / 10) (by omega) hdiv
        rw [getLastD_irrel _ hne _ 1]
        exact ih _ (by omega) hdiv

theorem map_digitChar_inj : ∀ (l1 l2 : List ℕ),
    (∀ d ∈ l1, d < 10) → (∀ d ∈ l2, d < 10) →
    l1.map (fun d => Char.ofNat (48 + d)) = l2.map (fun d => Char.ofNat (48 + d)) →
    l1 = l2 := by
  intro l1
  induction l1 with
  | nil =>
    intro l2 _ _ h
    cases l2 with
    | nil => rfl
    | cons d2 t2 => simp at h
  | cons d t ih =>
    intro l2 h1 h2 h
    cases l2 with
    | nil => simp at h
    | cons d2 t2 =>
      simp only [List.map_cons, List.cons.injEq] at h
      obtain ⟨hd, ht⟩ := h
      have hd1 : d < 10 := h1 d (List.mem_cons_self _ _)
      have hd2 : d2 < 10 := h2 d2 (List.mem_cons_self _ _)
      have hdd : d = d2 := by
        interval_cases d <;> interval_cases d2 <;> first | rfl | exact absurd hd (by decide)
      refine congrArg₂ List.cons hdd ?_
      exact ih t2 (fun x hx => h1 x (List.mem_cons_of_mem _ hx))
        (fun x hx => h2 x (List.mem_cons_of_mem _ hx)) ht

theorem digitChar_ne_zero_char {d : ℕ} (hlt : d < 10) (hne : d ≠ 0) :
    Char.ofNat (48 + d) ≠ '0' := by
  interval_cases d <;> first | exact absurd rfl hne | decide

theorem decStr_ne_zero_str {b : ℕ} (hb : b ≠ 0) : decStr b ≠ "0" := by
  intro h
  rw [decStr, if_neg hb] at h
  have hdata : ((decDigitsLE b b).map (fun d => Char.ofNat (48 + d))).reverse
      = ['0'] := congrArg String.data h
  have hmapeq : (decDigitsLE b b).map (fun d => Char.ofNat (48 + d)) = ['0'] := by
    have hr := congrArg List.reverse hdata
    simpa using hr
  cases hdig : decDigitsLE b b with
  | nil => exact decDigitsLE_ne_nil b b (by omega) (le_refl b) hdig
  | cons d0 t0 =>
    rw [hdig] at hmapeq
    simp only [List.map_cons, List.cons.injEq] at hmapeq
    obtain ⟨hd0, ht0⟩ := hmapeq
    have hd0lt : d0 < 10 :=
      decDigitsLE_lt_ten b b d0 (by rw [hdig]; exact List.mem_cons_self _ _)
    have hd0ne : d0 ≠ 0 := by
      have hlast := decDigitsLE_getLastD_ne_zero b b (by omega) (le_refl b)
      rw [hdig] at hlast
      have ht0nil : t0 = [] := by
        cases t0 with
        | nil => rfl
        | cons x xs => simp at ht0
      subst ht0nil
      simpa using hlast
    exact digitChar_ne_zero_char hd0lt hd0ne hd0

theorem decStr_inj : Function.Injective decStr := by
  intro a b h
  by_cases ha : a = 0 <;> by_cases hb : b = 0
  · rw [ha, hb]
  · exfalso
    subst ha
    exact decStr_ne_zero_str hb (h.symm.trans (rfl : decStr 0 = "0"))
  · exfalso
    subst hb
    exact decStr_ne_zero_str ha (h.trans (rfl : decStr 0 = "0"))
  · rw [decStr, if_neg ha] at h
    rw [decStr, if_neg hb] at h
    have hdata : ((decDigitsLE a a).map (fun d => Char.ofNat (48 + d))).reverse
        = ((decDigitsLE b b).map (fun d => Char.ofNat (48 + d))).reverse :=
      congrArg String.data h
    have hmapeq := congrArg List.reverse hdata
    simp only [List.reverse_reverse] at hmapeq
    exact decDigitsLE_inj (map_digitChar_inj _ _ (decDigitsLE_lt_ten a a)
      (decDigitsLE_lt_ten b b) hmapeq)

theorem speakerName_inj : Function.Injective speakerName := by
  have hmix : ∀ a b : ℕ, a < 10 → ¬ b < 10 →
      ("0" ++ decStr a).data ≠ (decStr b).data := by
    intro a b ha hb hcontra
    have hbne : b ≠ 0 := by omega
    have hhead : (("0" ++ decStr a).data).head? = ((decStr b).data).head? :=
      congrArg List.head? hcontra
    have hhead1 : some '0' = ((decStr b).data).head? := by
      rw [← hhead]
      rfl
    rw [decStr, if_neg hbne] at hhead1
    have hhead2 : some '0'
        = (((decDigitsLE b b).map fun d => Char.ofNat (48 + d)).reverse).head? :=
      hhead1
    rw [List.head?_reverse, List.getLast?_map] at hhead2
    cases hlast : (decDigitsLE b b).getLast? with
    | none =>
      rw [List.getLast?_eq_none_iff] at hlast
      exact decDigitsLE_ne_nil b b (by omega) (le_refl b) hlast
    | some d =>
      rw [hlast] at hhead2
      have hh3 : some '0' = some (Char.ofNat (48 + d)) := hhead2
      injection hh3 with hchar
      have hdlt : d < 10 :=
        decDigitsLE_lt_ten b b d (List.mem_of_mem_getLast? hlast)
      have hdne : d ≠ 0 := by
        have h1 := decDigitsLE_getLastD_ne_zero b b (by omega) (le_refl b)
        rw [List.getLastD_eq_getLast?, hlast] at h1
        simpa using h1
      exact digitChar_ne_zero_char hdlt hdne hchar.symm
  intro a b h
  have hdata := congrArg String.data h
  simp only [speakerName, String.data_append] at hdata
  have hpad := List.append_cancel_left hdata
  by_cases ha : a < 10 <;> by_cases hb : b < 10
  · rw [if_pos ha, if_pos hb] at hpad
    simp only [String.data_append] at hpad
    have h2 := List.append_cancel_left hpad
    exact decStr_inj (String.ext h2)
  · rw [if_pos ha, if_neg hb] at hpad
    simp only [String.data_append] at hpad
    exact absurd (by simpa [String.data_append] using hpad) (hmix a b ha hb)
  · rw [if_neg ha, if_pos hb] at hpad
    simp only [String.data_append] at hpad
    exact absurd (by simpa [String.data_append] using hpad.symm) (hmix b a hb ha)
  · rw [if_neg ha, if_neg hb] at hpad
    exact decStr_inj (String.ext hpad)

/-! ## Rounding monotonicity -/

theorem roundHalfEven_ge_floor (q : ℚ) : ⌊q⌋ ≤ roundHalfEven q := by
  simp only [roundHalfEven, ratFloor_eq_floor]
  split_ifs <;> omega

theorem roundHalfEven_le_floor_add_one (q : ℚ) : roundHalfEven q ≤ ⌊q⌋ + 1 := by
  simp only [roundHalfEven, ratFloor_eq_floor]
  split_ifs <;> omega

theorem roundHalfEven_mono {a b : ℚ} (h : a ≤ b) :
    roundHalfEven a ≤ roundHalfEven b := by
  have hf : ⌊a⌋ ≤ ⌊b⌋ := Int.floor_mono h
  rcases eq_or_lt_of_le hf with heq | hlt
  · simp only [roundHalfEven, ratFloor_eq_floor, ← heq]
    by_cases h1 : a - ⌊a⌋ < 1/2
    · rw [if_pos h1]
      split_ifs <;> omega
    · rw [if_neg h1]
      have hb1 : ¬ (b - (⌊a⌋ : ℚ) < 1/2) := by
        push_neg at h1 ⊢
        linarith
      rw [if_neg hb1]
      by_cases h2 : (1 : ℚ)/2 < b - ⌊a⌋
      · rw [if_pos h2]
        split_ifs <;> omega
      · have hab : a = b := by
          push_neg at h1 h2
          have h3 : a - (⌊a⌋ : ℚ) ≤ 1/2 := by
            have : a - (⌊a⌋ : ℚ) ≤ b - ⌊a⌋ := by linarith
            linarith
          have h4 : a - (⌊a⌋ : ℚ) = 1/2 := le_antisymm h3 h1
          have h5 : b - (⌊a⌋ : ℚ) = 1/2 := le_antisymm h2 (by linarith)
          have := h4.trans h5.symm
          linarith
        subst hab
        exact le_refl _
  · calc roundHalfEven a ≤ ⌊a⌋ + 1 := roundHalfEven_le_floor_add_one a
      _ ≤ ⌊b⌋ := by omega
      _ ≤ roundHalfEven b := roundHalfEven_ge_floor b

theorem round3_mono {a b : ℚ} (h : a ≤ b) : round3 a ≤ round3 b := by
  unfold round3
  have h1 : a * 1000 ≤ b * 1000 := by linarith
  have h2 := roundHalfEven_mono h1
  have h3 : (roundHalfEven (a * 1000) : ℚ) ≤ (roundHalfEven (b * 1000) : ℚ) := by
    exact_mod_cast h2
  exact div_le_div_of_nonneg_right h3 (by norm_num)

/-! ## Merger ordering and adjacent-label invariants -/

theorem mergeLoop_chain_start (rest : List ((ℚ × ℚ) × ℕ)) (cur : ℕ) (cs ce : ℚ)
    (hm : List.Chain' (fun a b : (ℚ × ℚ) × ℕ => a.1.1 ≤ b.1.1) rest)
    (hcs : ∀ p ∈ rest.head?, cs ≤ p.1.1) :
    List.Chain' (fun s t : Segment => s.start ≤ t.start)
      (mergeLoop rest cur cs ce) := by
  induction rest generalizing cur cs ce with
  | nil => simp [mergeLoop]
  | cons p rest ih =>
    obtain ⟨⟨s, e⟩, l⟩ := p
    rw [List.chain'_cons'] at hm
    obtain ⟨hs_next, hm'⟩ := hm
    have hcs_s : cs ≤ s := hcs ((s, e), l) rfl
    by_cases hl : l = cur
    · simp only [mergeLoop, if_pos hl]
      exact ih cur cs e hm' fun q hq => le_trans hcs_s (hs_next q hq)
    · simp only [mergeLoop, if_neg hl]
      rw [List.chain'_cons']
      constructor
      · intro t ht
        obtain ⟨e', tail, heq⟩ := mergeLoop_head rest l s e
        rw [heq] at ht
        simp only [List.head?_cons, Option.mem_def, Option.some.injEq] at ht
        subst ht
        exact round3_mono hcs_s
      · exact ih l s e hm' hs_next

theorem mergeLoop_chain_speaker (rest : List ((ℚ × ℚ) × ℕ)) (cur : ℕ)
    (cs ce : ℚ) :
    List.Chain' (fun s t : Segment => s.speaker ≠ t.speaker)
      (mergeLoop rest cur cs ce) := by
  induction rest generalizing cur cs ce with
  | nil => simp [mergeLoop]
  | cons p rest ih =>
    obtain ⟨⟨s, e⟩, l⟩ := p
    by_cases hl : l = cur
    · simp only [mergeLoop, if_pos hl]
      exact ih cur cs e
    · simp only [mergeLoop, if_neg hl]
      rw [List.chain'_cons']
      refine ⟨?_, ih l s e⟩
      intro t ht
      obtain ⟨e', tail, heq⟩ := mergeLoop_head rest l s e
      rw [heq] at ht
      simp only [List.head?_cons, Option.mem_def, Option.some.injEq] at ht
      subst ht
      exact fun hcontra => hl (speakerName_inj hcontra).symm

section
attribute [local semireducible] Rat.mul Rat.inv Rat.add Rat.sub

/-- C3 counterexample: on the windower-produced overlapping windows
`(0,1.5),(0.75,2.25),(1.5,3.0)` with labels `(0,1,0)` the merger emits the
segments `(0,1.5)`, `(0.75,2.25)`, `(1.5,3.0)`; the first ends at `1.5`,
after the second starts at `0.75`, so two emitted segments overlap in
time (the overlap is `(0.75, 1.5)`). -/
theorem c3_overlap_cex :
    merge_segments [(0, 3/2), (3/4, 9/4), (3/2, 3)] [0, 1, 0]
      = [⟨0, 3/2, "SPEAKER_00"⟩, ⟨3/4, 9/4, "SPEAKER_01"⟩,
         ⟨3/2, 3, "SPEAKER_00"⟩]
    ∧ ((3 : ℚ)/4 < 3/2 ∧ (0 : ℚ) < 3/4) := by
  constructor
  · decide
  · constructor <;> norm_num

end

/-- C3 (amended): for every non-empty aligned input whose window start
times are non-decreasing, the merger emits at least one segment, emits
segments in non-decreasing `start` order, and never emits two adjacent
segments with the same speaker string; emitted segments MAY overlap in
time where consecutive windows overlap across a label change (see the
counterexample). -/
theorem c3_merge_invariants (ts : List (ℚ × ℚ)) (labels : List ℕ)
    (hne : ts ≠ []) (hlen : ts.length = labels.length)
    (hmono : List.Chain' (fun a b : ℚ × ℚ => a.1 ≤ b.1) ts) :
    merge_segments ts labels ≠ []
    ∧ List.Chain' (fun s t : Segment => s.start ≤ t.start)
        (merge_segments ts labels)
    ∧ List.Chain' (fun s t : Segment => s.speaker ≠ t.speaker)
        (merge_segments ts labels) := by
  cases ts with
  | nil => exact absurd rfl hne
  | cons t0 ts' =>
    cases labels with
    | nil => exact absurd hlen (by simp)
    | cons l0 ls' =>
      have hlen' : ts'.length = ls'.length := by simpa using hlen
      have hmerge : merge_segments (t0 :: ts') (l0 :: ls')
          = mergeLoop (ts'.zip ls') l0 t0.1 t0.2 := by
        unfold merge_segments
        rw [show (t0 :: ts').zip (l0 :: ls') = (t0, l0) :: ts'.zip ls' from rfl]
      have hmap : ((t0, l0) :: ts'.zip ls').map (fun p => p.1.1)
          = (t0 :: ts').map Prod.fst := by
        simp only [List.map_cons]
        congr 1
        have hcomp : (ts'.zip ls').map (fun p : (ℚ × ℚ) × ℕ => p.1.1)
            = ((ts'.zip ls').map Prod.fst).map Prod.fst := by
          rw [List.map_map]
          rfl
        rw [hcomp, List.map_fst_zip ts' ls' (le_of_eq hlen')]
      have hzmono : List.Chain' (fun a b : (ℚ × ℚ) × ℕ => a.1.1 ≤ b.1.1)
          ((t0, l0) :: ts'.zip ls') := by
        have h1 : List.Chain' (· ≤ ·) ((t0 :: ts').map Prod.fst) :=
          (List.chain'_map (Prod.fst : ℚ × ℚ → ℚ)).2 hmono
        rw [← hmap] at h1
        exact (List.chain'_map (fun p : (ℚ × ℚ) × ℕ => p.1.1)).1 h1
      rw [List.chain'_cons'] at hzmono
      obtain ⟨hhd, htl⟩ := hzmono
      refine ⟨?_, ?_, ?_⟩
      · rw [hmerge]
        exact mergeLoop_ne_nil _ _ _ _
      · rw [hmerge]
        exact mergeLoop_chain_start _ _ _ _ htl hhd
      · rw [hmerge]
        exact mergeLoop_chain_speaker _ _ _ _

section
attribute [local semireducible] Rat.mul Rat.inv Rat.add Rat.sub

/-- Witness for C3 (amended) on the three overlapping windows with labels
`(0,1,0)`. -/
theorem c3_merge_invariants_witness :
    ([((0 : ℚ), 3/2), (3/4, 9/4), (3/2, 3)] : List (ℚ × ℚ)) ≠ []
    ∧ ([((0 : ℚ), 3/2), (3/4, 9/4), (3/2, 3)] : List (ℚ × ℚ)).length
        = ([0, 1, 0] : List ℕ).length
    ∧ List.Chain' (fun a b : ℚ × ℚ => a.1 ≤ b.1)
        [((0 : ℚ), 3/2), (3/4, 9/4), (3/2, 3)]
    ∧ (merge_segments [((0 : ℚ), 3/2), (3/4, 9/4), (3/2, 3)] [0, 1, 0] ≠ []
      ∧ List.Chain' (fun s t : Segment => s.start ≤ t.start)
          (merge_segments [((0 : ℚ), 3/2), (3/4, 9/4), (3/2, 3)] [0, 1, 0])
      ∧ List.Chain' (fun s t : Segment => s.speaker ≠ t.speaker)
          (merge_segments [((0 : ℚ), 3/2), (3/4, 9/4), (3/2, 3)] [0, 1, 0])) :=
  ⟨by decide, rfl, by simp [List.chain'_cons]; norm_num,
    c3_merge_invariants [((0 : ℚ), 3/2), (3/4, 9/4), (3/2, 3)] [0, 1, 0]
      (by decide) rfl (by simp [List.chain'_cons]; norm_num)⟩

/-- C7: on the three windows `(0,1.5),(0.75,2.25),(1.5,3.0)` with labels
`(0,0,1)` the merger returns exactly the two segments
`{0.0, 2.25, "SPEAKER_00"}` and `{1.5, 3.0, "SPEAKER_01"}` — the first
segment's end is widened to `2.25`, and each speaker string is the
zero-padded decimal label after `SPEAKER_`. -/
theorem c7_merge_concrete :
    merge_segments [(0, 3/2), (3/4, 9/4), (3/2, 3)] [0, 0, 1]
      = [⟨0, 9/4, "SPEAKER_00"⟩, ⟨3/2, 3, "SPEAKER_01"⟩] := by
  decide

end

end Diarize
